import Mathlib

/-!
Verification of the morphing-string repository: a Levenshtein edit-sequence
computation (`src/levenshtein.rs`), a single-edit primitive (`src/edit.rs`),
and a stateful morphing wrapper (`src/lib.rs`).

Strings are modelled as `List Char`, matching the code's
`string.chars().collect::<Vec<char>>()` view: indices count scalar
characters, never bytes.  A Rust panic (out-of-range `Vec` access) is
modelled as `none`.
-/

namespace Morph

/-- `Edit` (src/edit.rs): a single primitive mutation. -/
inductive Edit : Type where
  | insert (c : Char) (index : Nat)
  | delete (index : Nat)
  | substitute (c : Char) (index : Nat)
deriving DecidableEq, Repr

/-- `Edit::apply` (src/edit.rs).  `Vec::insert` panics when `index > len`,
`Vec::remove` and `chars[i] = c` panic when `index >= len`; a panic is
modelled as `none`. -/
def Edit.apply? : Edit → List Char → Option (List Char)
  | .insert c i, s => if i ≤ s.length then some (s.take i ++ c :: s.drop i) else none
  | .delete i, s => if i < s.length then some (s.eraseIdx i) else none
  | .substitute c i, s => if i < s.length then some (s.set i c) else none

/-- Applying a whole edit sequence front to back, each edit operating on the
string produced by the previous one; `none` as soon as one edit panics. -/
def applyScript? : List Edit → List Char → Option (List Char)
  | [], s => some s
  | e :: es, s =>
    match e.apply? s with
    | some u => applyScript? es u
    | none => none

/-- The edit's index is a valid position for its operation on `string`
(the complement of the panicking branch of `Edit::apply`). -/
def Edit.inRange : Edit → List Char → Prop
  | .insert _ i, s => i ≤ s.length
  | .delete i, s => i < s.length
  | .substitute _ i, s => i < s.length

instance (e : Edit) (s : List Char) : Decidable (e.inRange s) :=
  match e with
  | .insert _ i => inferInstanceAs (Decidable (i ≤ s.length))
  | .delete i => inferInstanceAs (Decidable (i < s.length))
  | .substitute _ i => inferInstanceAs (Decidable (i < s.length))

/-- `start_chars[k]` / `target_chars[k]`: every index the algorithm uses is
in bounds, so the default value is never observed. -/
def charAt (s : List Char) (k : Nat) : Char := s.getD k ' '

/-- The dp matrix of `compute_edit_sequence` (src/levenshtein.rs, lines
15-43): `dp[i][j]` is the recurrence value for converting `start[0..i]` into
`target[0..j]`.  The extra fuel argument only makes the recursion
structural; `D` below instantiates it with `i + j`, which
`Dfuel_eq` shows is always enough. -/
def Dfuel (s t : List Char) : Nat → Nat → Nat → Nat
  | _, 0, j => j
  | _, i+1, 0 => i + 1
  | 0, _+1, _+1 => 0
  | f+1, i+1, j+1 =>
    let substitutionDistance :=
      if charAt s i = charAt t j then Dfuel s t f i j else Dfuel s t f i j + 1
    let deletionDistance := Dfuel s t f i (j+1) + 1
    let insertionDistance := Dfuel s t f (i+1) j + 1
    min (min substitutionDistance deletionDistance) insertionDistance

/-- `dp[i][j]` of src/levenshtein.rs. -/
def D (s t : List Char) (i j : Nat) : Nat := Dfuel s t (i + j) i j

/-- Rust `Iterator::min_by_key` over a non-empty list: the first element
with minimal key (ties keep the earlier element). -/
def minByFirst (x : Nat × Edit) (rest : List (Nat × Edit)) : Nat × Edit :=
  rest.foldl (fun acc y => if y.1 < acc.1 then y else acc) x

/-- The three-candidate choice of src/levenshtein.rs lines 68-88, in source
order: substitution, insertion, deletion. -/
def chooseEdit (sub ins del : Nat × Edit) : Edit :=
  (minByFirst sub [ins, del]).2

/-- The edit chosen at a backtracking position where the characters differ
(src/levenshtein.rs lines 68-88); `i` `j` are the 0-based character
positions, i.e. the matrix cell is `(i+1, j+1)`. -/
def btStep (s t : List Char) (i j : Nat) : Edit :=
  chooseEdit
    (D s t i j, Edit.substitute (charAt t j) i)
    (D s t (i+1) j, Edit.insert (charAt t j) (i+1))
    (D s t i (j+1), Edit.delete i)

/-- The backtracking loop of src/levenshtein.rs lines 50-105, as a function
of the current cell `(i, j)`: the list of edits accumulated (in final
front-to-back order; the loop pushes each edit to the front while walking
toward `(0, 0)`).  Fuel as in `Dfuel`. -/
def btFuel (s t : List Char) : Nat → Nat → Nat → List Edit
  | _, 0, 0 => []
  | f+1, 0, j+1 => btFuel s t f 0 j ++ [Edit.insert (charAt t j) 0]
  | f+1, i+1, 0 => btFuel s t f i 0 ++ [Edit.delete i]
  | f+1, i+1, j+1 =>
    if charAt s i = charAt t j then
      btFuel s t f i j
    else
      match btStep s t i j with
      | Edit.insert c k => btFuel s t f (i+1) j ++ [Edit.insert c k]
      | Edit.delete k => btFuel s t f i (j+1) ++ [Edit.delete k]
      | Edit.substitute c k => btFuel s t f i j ++ [Edit.substitute c k]
  | 0, _+1, _ => []
  | 0, _, _+1 => []

/-- The edits reconstructed by backtracking from cell `(i, j)`. -/
def bt (s t : List Char) (i j : Nat) : List Edit := btFuel s t (i + j) i j

/-- One step of the index-correction pass (src/levenshtein.rs lines
109-124).  The Rust code computes `(*index as i64 + shift) as usize`; on the
sequences the algorithm produces the sum is never negative (proved below),
so `Int.toNat` is the faithful rendering. -/
def shiftIndex (idx : Nat) (shift : Int) : Nat := ((idx : Int) + shift).toNat

/-- The index-correction pass (src/levenshtein.rs lines 109-124). -/
def shiftPass (shift : Int) : List Edit → List Edit
  | [] => []
  | Edit.insert c idx :: es => Edit.insert c (shiftIndex idx shift) :: shiftPass (shift + 1) es
  | Edit.delete idx :: es => Edit.delete (shiftIndex idx shift) :: shiftPass (shift - 1) es
  | Edit.substitute c idx :: es => Edit.substitute c (shiftIndex idx shift) :: shiftPass shift es

/-- Net shift contributed by a list of edits (`+1` per insert, `-1` per
delete). -/
def shiftOf : List Edit → Int
  | [] => 0
  | Edit.insert _ _ :: es => 1 + shiftOf es
  | Edit.delete _ :: es => shiftOf es - 1
  | Edit.substitute _ _ :: es => shiftOf es

/-- `compute_edit_sequence` (src/levenshtein.rs lines 7-127). -/
def compute_edit_sequence (s t : List Char) : List Edit :=
  shiftPass 0 (bt s t s.length t.length)

/-- The classical Levenshtein recurrence, peeling characters from the front.
Used only as a proof tool for the minimality claim. -/
def lev : List Char → List Char → Nat
  | [], t => t.length
  | _ :: s, [] => s.length + 1
  | a :: s, b :: t =>
    if a = b then lev s t
    else 1 + min (lev s t) (min (lev (a :: s) t) (lev s (b :: t)))
termination_by s t => s.length + t.length

/-- The mirrored edit: the one that performs on the reversed string what the
original edit performs on a string of length `n`. -/
def Edit.mirror (n : Nat) : Edit → Edit
  | .insert c i => .insert c (n - i)
  | .delete i => .delete (n - 1 - i)
  | .substitute c i => .substitute c (n - 1 - i)

/-- `Progress` (src/lib.rs lines 51-61). -/
structure Progress : Type where
  total_edits : Nat
  remaining_edits : Nat
deriving DecidableEq, Repr

/-- `Progress::is_complete` (src/lib.rs). -/
def Progress.is_complete (p : Progress) : Bool := p.remaining_edits == 0

/-- `MorphingString` (src/lib.rs lines 8-13). -/
structure MorphingString : Type where
  current_value : List Char
  target : List Char
  remaining_edits : List Edit
  total_edits : Nat
deriving DecidableEq, Repr

/-- `MorphingString::new` (src/lib.rs lines 16-23). -/
def MorphingString.new (value : List Char) : MorphingString :=
  { current_value := value
    target := value
    remaining_edits := []
    total_edits := 0 }

/-- `MorphingString::set_target` (src/lib.rs lines 25-29). -/
def MorphingString.set_target (m : MorphingString) (target : List Char) : MorphingString :=
  { current_value := m.current_value
    target := target
    remaining_edits := compute_edit_sequence m.current_value target
    total_edits := (compute_edit_sequence m.current_value target).length }

/-- `MorphingString::progress` (src/lib.rs lines 43-48). -/
def MorphingString.progress (m : MorphingString) : Progress :=
  { total_edits := m.total_edits
    remaining_edits := m.remaining_edits.length }

/-- `MorphingString::advance` (src/lib.rs lines 31-37); the panic of
`Edit::apply` propagates as `none`. -/
def MorphingString.advance (m : MorphingString) : Option (MorphingString × Progress) :=
  match m.remaining_edits with
  | [] => some (m, m.progress)
  | e :: rest =>
    match e.apply? m.current_value with
    | some v =>
      let m' : MorphingString :=
        { current_value := v
          target := m.target
          remaining_edits := rest
          total_edits := m.total_edits }
      some (m', m'.progress)
    | none => none

/-- `MorphingString::get_value` (src/lib.rs lines 39-41). -/
def MorphingString.get_value (m : MorphingString) : List Char := m.current_value

/-- `k` successive `advance` calls. -/
def MorphingString.advanceN (m : MorphingString) : Nat → Option MorphingString
  | 0 => some m
  | k+1 =>
    match m.advance with
    | some (m', _) => m'.advanceN k
    | none => none

/-- The states producible through the public operations of `MorphingString`
(`get_value` and `progress` do not mutate). -/
inductive Reachable : MorphingString → Prop where
  | new (value : List Char) : Reachable (MorphingString.new value)
  | set_target {m : MorphingString} (target : List Char) :
      Reachable m → Reachable (m.set_target target)
  | advance {m m' : MorphingString} {p : Progress} :
      Reachable m → m.advance = some (m', p) → Reachable m'

/-- One step of fuel beyond `i + j` changes nothing. -/
theorem Dfuel_succ (s t : List Char) :
    ∀ f i j, i + j ≤ f → Dfuel s t (f+1) i j = Dfuel s t f i j := by
  intro f
  induction f with
  | zero =>
    intro i j h
    cases i with
    | zero => simp [Dfuel]
    | succ i => omega
  | succ f ih =>
    intro i j h
    cases i with
    | zero => simp [Dfuel]
    | succ i =>
      cases j with
      | zero => simp [Dfuel]
      | succ j =>
        rw [Dfuel.eq_4, Dfuel.eq_4]
        rw [ih i j (by omega), ih i (j+1) (by omega), ih (i+1) j (by omega)]

theorem Dfuel_eq (s t : List Char) :
    ∀ f i j, i + j ≤ f → Dfuel s t f i j = D s t i j := by
  intro f
  induction f with
  | zero =>
    intro i j h
    have hi : i = 0 := by omega
    have hj : j = 0 := by omega
    subst hi; subst hj; rfl
  | succ f ih =>
    intro i j h
    rcases Nat.lt_or_ge (i + j) (f + 1) with hlt | hge
    · rw [Dfuel_succ s t f i j (by omega), ih i j (by omega)]
    · rw [D, show i + j = f + 1 by omega]

theorem D_zero_left (s t : List Char) (j : Nat) : D s t 0 j = j := by
  simp [D, Dfuel]

theorem D_succ_zero (s t : List Char) (i : Nat) : D s t (i+1) 0 = i + 1 := by
  simp [D, Dfuel]

theorem D_succ_succ (s t : List Char) (i j : Nat) :
    D s t (i+1) (j+1) =
      min (min (if charAt s i = charAt t j then D s t i j else D s t i j + 1)
        (D s t i (j+1) + 1)) (D s t (i+1) j + 1) := by
  show Dfuel s t ((i+1) + (j+1)) (i+1) (j+1) = _
  rw [show (i+1) + (j+1) = ((i+1) + j) + 1 from rfl, Dfuel.eq_4]
  rw [Dfuel_eq s t _ i j (by omega), Dfuel_eq s t _ i (j+1) (by omega),
    Dfuel_eq s t _ (i+1) j (by omega)]

/-- The dp value dominates the difference of the coordinates. -/
theorem D_ge (s t : List Char) :
    ∀ n i j, i + j ≤ n → i - j ≤ D s t i j ∧ j - i ≤ D s t i j := by
  intro n
  induction n with
  | zero =>
    intro i j h
    cases i with
    | zero => rw [D_zero_left]; omega
    | succ i => omega
  | succ n ih =>
    intro i j h
    cases i with
    | zero => rw [D_zero_left]; omega
    | succ i =>
      cases j with
      | zero => rw [D_succ_zero]; omega
      | succ j =>
        have hij := ih i j (by omega)
        have hi1j := ih (i+1) j (by omega)
        have hij1 := ih i (j+1) (by omega)
        rw [D_succ_succ]
        constructor
        · split <;> omega
        · split <;> omega

/-- Moving one cell up or left in the dp matrix lowers the value by at most
one. -/
theorem D_adj (s t : List Char) :
    ∀ n i j, i + j ≤ n →
      D s t i j ≤ D s t (i+1) j + 1 ∧ D s t i j ≤ D s t i (j+1) + 1 := by
  intro n
  induction n with
  | zero =>
    intro i j h
    have hi : i = 0 := by omega
    have hj : j = 0 := by omega
    subst hi; subst hj
    constructor
    · rw [D_zero_left, D_succ_zero]; omega
    · rw [D_zero_left, D_zero_left]; omega
  | succ n ih =>
    intro i j h
    cases i with
    | zero =>
      simp only [Nat.zero_add]
      constructor
      · rw [D_zero_left]
        have h1 := (D_ge s t (1 + j) 1 j le_rfl).2
        omega
      · rw [D_zero_left, D_zero_left]; omega
    | succ i =>
      cases j with
      | zero =>
        simp only [Nat.zero_add]
        constructor
        · rw [D_succ_zero, D_succ_zero]; omega
        · rw [D_succ_zero]
          have h1 := (D_ge s t ((i+1) + 1) (i+1) 1 le_rfl).1
          omega
      | succ j =>
        constructor
        · have hadj := (ih (i+1) j (by omega)).1
          rw [D_succ_succ s t (i+1) j, D_succ_succ s t i j]
          split <;> split <;> omega
        · have hadj := (ih i (j+1) (by omega)).2
          rw [D_succ_succ s t i (j+1), D_succ_succ s t i j]
          split <;> split <;> omega

/-- `Iterator::min_by_key` over the three candidates, fully computed. -/
theorem chooseEdit_spec (a b c : Nat) (ea eb ec : Edit) :
    chooseEdit (a, ea) (b, eb) (c, ec) =
      if b < a then (if c < b then ec else eb) else (if c < a then ec else ea) := by
  by_cases hba : b < a
  · by_cases hcb : c < b
    · simp [chooseEdit, minByFirst, hba, hcb]
    · simp [chooseEdit, minByFirst, hba, hcb]
  · by_cases hca : c < a
    · simp [chooseEdit, minByFirst, hba, hca]
    · simp [chooseEdit, minByFirst, hba, hca]

/-- The chosen edit is always one of the three candidates of the source. -/
theorem btStep_cases (s t : List Char) (i j : Nat) :
    btStep s t i j = Edit.substitute (charAt t j) i ∨
    btStep s t i j = Edit.insert (charAt t j) (i+1) ∨
    btStep s t i j = Edit.delete i := by
  rw [btStep, chooseEdit_spec]
  split
  · split
    · exact Or.inr (Or.inr rfl)
    · exact Or.inr (Or.inl rfl)
  · split
    · exact Or.inr (Or.inr rfl)
    · exact Or.inl rfl

/-- When substitution is chosen, its predecessor cell is minimal. -/
theorem btStep_sub (s t : List Char) (i j : Nat) (c : Char) (k : Nat)
    (h : btStep s t i j = Edit.substitute c k) :
    c = charAt t j ∧ k = i ∧
      D s t i j ≤ D s t (i+1) j ∧ D s t i j ≤ D s t i (j+1) := by
  rw [btStep, chooseEdit_spec] at h
  split at h
  · split at h <;> exact Edit.noConfusion h
  · split at h
    · exact Edit.noConfusion h
    · injection h with h1 h2
      refine ⟨h1.symm, h2.symm, by omega, by omega⟩

/-- When insertion is chosen, its predecessor cell is the unique minimum
among substitution and itself, and no larger than deletion's. -/
theorem btStep_ins (s t : List Char) (i j : Nat) (c : Char) (k : Nat)
    (h : btStep s t i j = Edit.insert c k) :
    c = charAt t j ∧ k = i + 1 ∧
      D s t (i+1) j < D s t i j ∧ D s t (i+1) j ≤ D s t i (j+1) := by
  rw [btStep, chooseEdit_spec] at h
  split at h
  · split at h
    · exact Edit.noConfusion h
    · injection h with h1 h2
      refine ⟨h1.symm, h2.symm, by omega, by omega⟩
  · split at h <;> exact Edit.noConfusion h

/-- When deletion is chosen, its predecessor cell is strictly below both
other candidates. -/
theorem btStep_del (s t : List Char) (i j : Nat) (k : Nat)
    (h : btStep s t i j = Edit.delete k) :
    k = i ∧ D s t i (j+1) < D s t i j ∧ D s t i (j+1) < D s t (i+1) j := by
  rw [btStep, chooseEdit_spec] at h
  split at h
  · split at h
    · injection h with h1
      refine ⟨h1.symm, by omega, by omega⟩
    · exact Edit.noConfusion h
  · split at h
    · injection h with h1
      refine ⟨h1.symm, by omega, by omega⟩
    · exact Edit.noConfusion h

/-- One step of fuel beyond `i + j` changes nothing in the backtracking. -/
theorem btFuel_succ (s t : List Char) :
    ∀ f i j, i + j ≤ f → btFuel s t (f+1) i j = btFuel s t f i j := by
  intro f
  induction f with
  | zero =>
    intro i j h
    have hi : i = 0 := by omega
    have hj : j = 0 := by omega
    subst hi; subst hj
    rw [btFuel.eq_1, btFuel.eq_1]
  | succ f ih =>
    intro i j h
    cases i with
    | zero =>
      cases j with
      | zero => rw [btFuel.eq_1, btFuel.eq_1]
      | succ j => rw [btFuel.eq_2, btFuel.eq_2, ih 0 j (by omega)]
    | succ i =>
      cases j with
      | zero => rw [btFuel.eq_3, btFuel.eq_3, ih i 0 (by omega)]
      | succ j =>
        rw [btFuel.eq_4, btFuel.eq_4]
        by_cases heq : charAt s i = charAt t j
        · rw [if_pos heq, if_pos heq, ih i j (by omega)]
        · rw [if_neg heq, if_neg heq]
          rcases btStep_cases s t i j with hs | hs | hs <;> rw [hs]
          · show btFuel s t (f+1) i j ++ _ = btFuel s t f i j ++ _
            rw [ih i j (by omega)]
          · show btFuel s t (f+1) (i+1) j ++ _ = btFuel s t f (i+1) j ++ _
            rw [ih (i+1) j (by omega)]
          · show btFuel s t (f+1) i (j+1) ++ _ = btFuel s t f i (j+1) ++ _
            rw [ih i (j+1) (by omega)]

theorem btFuel_eq (s t : List Char) :
    ∀ f i j, i + j ≤ f → btFuel s t f i j = bt s t i j := by
  intro f
  induction f with
  | zero =>
    intro i j h
    have hi : i = 0 := by omega
    have hj : j = 0 := by omega
    subst hi; subst hj; rfl
  | succ f ih =>
    intro i j h
    rcases Nat.lt_or_ge (i + j) (f + 1) with hlt | hge
    · rw [btFuel_succ s t f i j (by omega), ih i j (by omega)]
    · rw [bt, show i + j = f + 1 by omega]

theorem bt_zero_zero (s t : List Char) : bt s t 0 0 = [] := rfl

theorem bt_zero_succ (s t : List Char) (j : Nat) :
    bt s t 0 (j+1) = bt s t 0 j ++ [Edit.insert (charAt t j) 0] := by
  show btFuel s t (0 + (j+1)) 0 (j+1) = _
  rw [show 0 + (j+1) = (0+j) + 1 from rfl, btFuel.eq_2, btFuel_eq s t (0+j) 0 j (by omega)]

theorem bt_succ_zero (s t : List Char) (i : Nat) :
    bt s t (i+1) 0 = bt s t i 0 ++ [Edit.delete i] := by
  show btFuel s t ((i+1) + 0) (i+1) 0 = _
  rw [show (i+1) + 0 = i + 1 from rfl, btFuel.eq_3, btFuel_eq s t i i 0 (by omega)]

theorem bt_match (s t : List Char) (i j : Nat) (h : charAt s i = charAt t j) :
    bt s t (i+1) (j+1) = bt s t i j := by
  show btFuel s t ((i+1) + (j+1)) (i+1) (j+1) = _
  rw [show (i+1) + (j+1) = ((i+1)+j) + 1 from rfl, btFuel.eq_4, if_pos h,
    btFuel_eq s t ((i+1)+j) i j (by omega)]

theorem bt_ne_sub (s t : List Char) (i j : Nat) (c : Char) (k : Nat)
    (hne : charAt s i ≠ charAt t j) (hs : btStep s t i j = Edit.substitute c k) :
    bt s t (i+1) (j+1) = bt s t i j ++ [Edit.substitute c k] := by
  show btFuel s t ((i+1) + (j+1)) (i+1) (j+1) = _
  rw [show (i+1) + (j+1) = ((i+1)+j) + 1 from rfl, btFuel.eq_4, if_neg hne, hs]
  show btFuel s t ((i+1)+j) i j ++ _ = _
  rw [btFuel_eq s t ((i+1)+j) i j (by omega)]

theorem bt_ne_ins (s t : List Char) (i j : Nat) (c : Char) (k : Nat)
    (hne : charAt s i ≠ charAt t j) (hs : btStep s t i j = Edit.insert c k) :
    bt s t (i+1) (j+1) = bt s t (i+1) j ++ [Edit.insert c k] := by
  show btFuel s t ((i+1) + (j+1)) (i+1) (j+1) = _
  rw [show (i+1) + (j+1) = ((i+1)+j) + 1 from rfl, btFuel.eq_4, if_neg hne, hs]
  show btFuel s t ((i+1)+j) (i+1) j ++ _ = _
  rw [btFuel_eq s t ((i+1)+j) (i+1) j (by omega)]

theorem bt_ne_del (s t : List Char) (i j : Nat) (k : Nat)
    (hne : charAt s i ≠ charAt t j) (hs : btStep s t i j = Edit.delete k) :
    bt s t (i+1) (j+1) = bt s t i (j+1) ++ [Edit.delete k] := by
  show btFuel s t ((i+1) + (j+1)) (i+1) (j+1) = _
  rw [show (i+1) + (j+1) = ((i+1)+j) + 1 from rfl, btFuel.eq_4, if_neg hne, hs]
  show btFuel s t ((i+1)+j) i (j+1) ++ _ = _
  rw [btFuel_eq s t ((i+1)+j) i (j+1) (by omega)]

theorem D_zero_right (s t : List Char) (i : Nat) : D s t i 0 = i := by
  cases i with
  | zero => rw [D_zero_left]
  | succ i => rw [D_succ_zero]

/-- The number of reconstructed edits is exactly the dp value of the cell
backtracking started from. -/
theorem bt_length (s t : List Char) :
    ∀ n i j, i + j ≤ n → (bt s t i j).length = D s t i j := by
  intro n
  induction n with
  | zero =>
    intro i j h
    have hi : i = 0 := by omega
    have hj : j = 0 := by omega
    subst hi; subst hj
    rw [bt_zero_zero, D_zero_left]; rfl
  | succ n ih =>
    intro i j h
    cases i with
    | zero =>
      cases j with
      | zero => rw [bt_zero_zero, D_zero_left]; rfl
      | succ j =>
        rw [bt_zero_succ, D_zero_left]
        simp only [List.length_append, List.length_singleton]
        rw [ih 0 j (by omega), D_zero_left]
    | succ i =>
      cases j with
      | zero =>
        rw [bt_succ_zero, D_succ_zero]
        simp only [List.length_append, List.length_singleton]
        rw [ih i 0 (by omega), D_zero_right]
      | succ j =>
        by_cases heq : charAt s i = charAt t j
        · rw [bt_match s t i j heq, ih i j (by omega), D_succ_succ, if_pos heq]
          have h1 := (D_adj s t (i + (j+1)) i j (by omega)).1
          have h2 := (D_adj s t (i + (j+1)) i j (by omega)).2
          omega
        · rcases btStep_cases s t i j with hs | hs | hs
          · rw [bt_ne_sub s t i j _ _ heq hs]
            simp only [List.length_append, List.length_singleton]
            rw [ih i j (by omega), D_succ_succ, if_neg heq]
            have h1 := (btStep_sub s t i j _ _ hs).2.2
            omega
          · rw [bt_ne_ins s t i j _ _ heq hs]
            simp only [List.length_append, List.length_singleton]
            rw [ih (i+1) j (by omega), D_succ_succ, if_neg heq]
            have h1 := (btStep_ins s t i j _ _ hs).2.2
            omega
          · rw [bt_ne_del s t i j _ heq hs]
            simp only [List.length_append, List.length_singleton]
            rw [ih i (j+1) (by omega), D_succ_succ, if_neg heq]
            have h1 := (btStep_del s t i j _ hs).2
            omega

theorem shiftPass_length (sh : Int) (es : List Edit) :
    (shiftPass sh es).length = es.length := by
  induction es generalizing sh with
  | nil => rfl
  | cons e es ih => cases e <;> simp [shiftPass, ih]

theorem shiftOf_append (A B : List Edit) :
    shiftOf (A ++ B) = shiftOf A + shiftOf B := by
  induction A with
  | nil => simp [shiftOf]
  | cons e A ih => cases e <;> simp [shiftOf, ih] <;> ring

theorem shiftPass_append (sh : Int) (A B : List Edit) :
    shiftPass sh (A ++ B) = shiftPass sh A ++ shiftPass (sh + shiftOf A) B := by
  induction A generalizing sh with
  | nil => simp [shiftPass, shiftOf]
  | cons e A ih =>
    cases e with
    | insert c idx =>
      simp only [List.cons_append, shiftPass, shiftOf, List.append_eq]
      rw [ih, show sh + 1 + shiftOf A = sh + (1 + shiftOf A) by ring]
    | delete idx =>
      simp only [List.cons_append, shiftPass, shiftOf, List.append_eq]
      rw [ih, show sh - 1 + shiftOf A = sh + (shiftOf A - 1) by ring]
    | substitute c idx =>
      simp only [List.cons_append, shiftPass, shiftOf, List.append_eq]
      rw [ih]

/-- The net shift of the edits reconstructed from cell `(i, j)` is
`j - i`. -/
theorem shiftOf_bt (s t : List Char) :
    ∀ n i j, i + j ≤ n → shiftOf (bt s t i j) = (j : Int) - (i : Int) := by
  intro n
  induction n with
  | zero =>
    intro i j h
    have hi : i = 0 := by omega
    have hj : j = 0 := by omega
    subst hi; subst hj
    rw [bt_zero_zero]; rfl
  | succ n ih =>
    intro i j h
    cases i with
    | zero =>
      cases j with
      | zero => rw [bt_zero_zero]; rfl
      | succ j =>
        rw [bt_zero_succ, shiftOf_append, ih 0 j (by omega)]
        simp only [shiftOf]
        push_cast
        ring
    | succ i =>
      cases j with
      | zero =>
        rw [bt_succ_zero, shiftOf_append, ih i 0 (by omega)]
        simp only [shiftOf]
        push_cast
        ring
      | succ j =>
        by_cases heq : charAt s i = charAt t j
        · rw [bt_match s t i j heq, ih i j (by omega)]
          push_cast
          ring
        · rcases btStep_cases s t i j with hs | hs | hs
          · rw [bt_ne_sub s t i j _ _ heq hs, shiftOf_append, ih i j (by omega)]
            simp only [shiftOf]
            push_cast
            ring
          · rw [bt_ne_ins s t i j _ _ heq hs, shiftOf_append, ih (i+1) j (by omega)]
            simp only [shiftOf]
            push_cast
            ring
          · rw [bt_ne_del s t i j _ heq hs, shiftOf_append, ih i (j+1) (by omega)]
            simp only [shiftOf]
            push_cast
            ring

theorem applyScript?_append (A B : List Edit) (s : List Char) :
    applyScript? (A ++ B) s = (applyScript? A s).bind (fun u => applyScript? B u) := by
  induction A generalizing s with
  | nil => simp [applyScript?]
  | cons e A ih =>
    simp only [List.cons_append, applyScript?]
    cases h : e.apply? s with
    | none => simp
    | some u => simp [ih]

theorem charAt_eq (s : List Char) (k : Nat) (h : k < s.length) :
    charAt s k = s[k] := by
  rw [charAt, List.getD_eq_getElem s ' ' h]

theorem take_succ_eq (t : List Char) (j : Nat) (h : j < t.length) :
    t.take (j+1) = t.take j ++ [t[j]] := by
  rw [List.take_succ, List.getElem?_eq_getElem h]
  rfl

theorem applyScript?_singleton (e : Edit) (u : List Char) :
    applyScript? [e] u = e.apply? u := by
  cases h : e.apply? u <;> simp [applyScript?, h]

/-- Round-trip of the backtracking from cell `(i, j)`: the shift-corrected
edits, applied in order to `s`, replace the first `i` characters of `s` by
the first `j` characters of `t`. -/
theorem roundtrip_aux (s t : List Char) :
    ∀ n i j, i + j ≤ n → i ≤ s.length → j ≤ t.length →
      applyScript? (shiftPass 0 (bt s t i j)) s = some (t.take j ++ s.drop i) := by
  intro n
  induction n with
  | zero =>
    intro i j h hi hj
    have hi0 : i = 0 := by omega
    have hj0 : j = 0 := by omega
    subst hi0; subst hj0
    rw [bt_zero_zero]
    simp [shiftPass, applyScript?]
  | succ n ih =>
    intro i j h hi hj
    cases i with
    | zero =>
      cases j with
      | zero =>
        rw [bt_zero_zero]
        simp [shiftPass, applyScript?]
      | succ j =>
        have htj : j < t.length := by omega
        rw [bt_zero_succ, shiftPass_append, applyScript?_append,
          ih 0 j (by omega) (by omega) (by omega),
          shiftOf_bt s t (0 + j) 0 j (by omega), Option.some_bind]
        simp only [shiftPass]
        rw [show shiftIndex 0 (0 + ((j : Int) - (0 : Nat))) = j by
          simp only [shiftIndex]; omega]
        rw [applyScript?_singleton]
        simp only [Edit.apply?, List.drop_zero]
        have hlen : (t.take j).length = j := by
          rw [List.length_take]; omega
        rw [if_pos (by rw [List.length_append, hlen]; omega)]
        rw [List.take_left' hlen, List.drop_left' hlen, charAt_eq t j htj,
          take_succ_eq t j htj]
        simp only [List.append_assoc, List.singleton_append]
    | succ i =>
      have his : i < s.length := by omega
      cases j with
      | zero =>
        rw [bt_succ_zero, shiftPass_append, applyScript?_append,
          ih i 0 (by omega) (by omega) (by omega),
          shiftOf_bt s t (i + 0) i 0 (by omega), Option.some_bind]
        simp only [shiftPass]
        rw [show shiftIndex i (0 + ((0 : Nat) - (i : Int))) = 0 by
          simp only [shiftIndex]; omega]
        rw [applyScript?_singleton]
        simp only [Edit.apply?, List.take_zero, List.nil_append]
        rw [if_pos (by rw [List.length_drop]; omega)]
        rw [List.drop_eq_getElem_cons his, List.eraseIdx_cons_zero]
      | succ j =>
        have htj : j < t.length := by omega
        by_cases heq : charAt s i = charAt t j
        · rw [bt_match s t i j heq, ih i j (by omega) (by omega) (by omega)]
          rw [charAt_eq s i his, charAt_eq t j htj] at heq
          rw [take_succ_eq t j htj, List.drop_eq_getElem_cons his, heq]
          simp only [List.append_assoc, List.singleton_append]
        · rcases btStep_cases s t i j with hs | hs | hs
          · -- substitution chosen
            rw [bt_ne_sub s t i j _ _ heq hs, shiftPass_append, applyScript?_append,
              ih i j (by omega) (by omega) (by omega),
              shiftOf_bt s t (i + j) i j (by omega), Option.some_bind]
            simp only [shiftPass]
            rw [show shiftIndex i (0 + ((j : Int) - (i : Int))) = j by
              simp only [shiftIndex]; omega]
            rw [applyScript?_singleton]
            simp only [Edit.apply?]
            have hlen : (t.take j).length = j := by
              rw [List.length_take]; omega
            rw [if_pos (by rw [List.length_append, hlen, List.length_drop]; omega)]
            rw [List.set_append_right _ _ hlen.le]
            rw [hlen, Nat.sub_self, List.drop_eq_getElem_cons his, List.set_cons_zero]
            rw [charAt_eq t j htj, take_succ_eq t j htj]
            simp only [List.append_assoc, List.singleton_append]
          · -- insertion chosen
            rw [bt_ne_ins s t i j _ _ heq hs, shiftPass_append, applyScript?_append,
              ih (i+1) j (by omega) (by omega) (by omega),
              shiftOf_bt s t ((i+1) + j) (i+1) j (by omega), Option.some_bind]
            simp only [shiftPass]
            rw [show shiftIndex (i+1) (0 + ((j : Int) - ((i:Nat)+1 : Nat))) = j by
              simp only [shiftIndex]; push_cast; omega]
            rw [applyScript?_singleton]
            simp only [Edit.apply?]
            have hlen : (t.take j).length = j := by
              rw [List.length_take]; omega
            rw [if_pos (by rw [List.length_append, hlen]; omega)]
            rw [List.take_left' hlen, List.drop_left' hlen, charAt_eq t j htj,
              take_succ_eq t j htj]
            simp only [List.append_assoc, List.singleton_append]
          · -- deletion chosen
            rw [bt_ne_del s t i j _ heq hs, shiftPass_append, applyScript?_append,
              ih i (j+1) (by omega) (by omega) (by omega),
              shiftOf_bt s t (i + (j+1)) i (j+1) (by omega), Option.some_bind]
            simp only [shiftPass]
            rw [show shiftIndex i (0 + ((((j:Nat)+1 : Nat) : Int) - (i : Int))) = j + 1 by
              simp only [shiftIndex]; push_cast; omega]
            rw [applyScript?_singleton]
            simp only [Edit.apply?]
            have hlen : (t.take (j+1)).length = j + 1 := by
              rw [List.length_take]; omega
            rw [if_pos (by rw [List.length_append, hlen, List.length_drop]; omega)]
            rw [List.eraseIdx_eq_take_drop_succ, List.take_left' hlen]
            rw [show (t.take (j+1) ++ s.drop i).drop (j+1+1) =
                (t.take (j+1) ++ s.drop i).drop ((t.take (j+1)).length + 1) by rw [hlen]]
            rw [List.drop_append, List.drop_drop]


/-- C1: applying every edit of `compute_edit_sequence s t` to `s` strictly in
order, each edit operating on the string produced by the previous one,
yields exactly `t` (and no edit panics on the way). -/
theorem compute_edit_sequence_roundtrip (s t : List Char) :
    applyScript? (compute_edit_sequence s t) s = some t := by
  rw [compute_edit_sequence,
    roundtrip_aux s t (s.length + t.length) s.length t.length le_rfl le_rfl le_rfl]
  rw [List.take_length, List.drop_length, List.append_nil]

theorem bt_diag (s : List Char) : ∀ i, bt s s i i = [] := by
  intro i
  induction i with
  | zero => exact bt_zero_zero s s
  | succ i ih => rw [bt_match s s i i rfl, ih]

/-- C7: the edit sequence from a string to itself is empty. -/
theorem compute_edit_sequence_self (s : List Char) :
    compute_edit_sequence s s = [] := by
  rw [compute_edit_sequence, bt_diag s s.length]
  rfl

theorem Edit.apply?_eq_none_iff (e : Edit) (s : List Char) :
    e.apply? s = none ↔ ¬ e.inRange s := by
  cases e <;> simp [Edit.apply?, Edit.inRange]

theorem Edit.inRange_of_apply? (e : Edit) (s u : List Char)
    (h : e.apply? s = some u) : e.inRange s := by
  by_contra hc
  rw [← Edit.apply?_eq_none_iff] at hc
  rw [h] at hc
  exact Option.noConfusion hc

/-- Every successfully applied script has each edit in range on the
intermediate string it is applied to. -/
theorem applyScript?_take_inRange :
    ∀ (es : List Edit) (s v : List Char), applyScript? es s = some v →
      ∀ k e, es[k]? = some e →
        ∃ u, applyScript? (es.take k) s = some u ∧ e.inRange u := by
  intro es
  induction es with
  | nil =>
    intro s v h k e hk
    simp at hk
  | cons e0 es ih =>
    intro s v h k e hk
    rw [applyScript?] at h
    cases happ : e0.apply? s with
    | none => rw [happ] at h; exact Option.noConfusion h
    | some u1 =>
      rw [happ] at h
      cases k with
      | zero =>
        simp only [List.getElem?_cons_zero, Option.some_inj] at hk
        subst hk
        exact ⟨s, rfl, Edit.inRange_of_apply? e0 s u1 happ⟩
      | succ k =>
        simp only [List.getElem?_cons_succ] at hk
        obtain ⟨u, hu1, hu2⟩ := ih u1 v h k e hk
        refine ⟨u, ?_, hu2⟩
        rw [List.take_succ_cons, applyScript?, happ]
        exact hu1

/-- C5: every edit of a computed sequence is in range at the moment it is
applied, so the panicking branch of `Edit::apply` is unreachable for
sequencer-produced sequences. -/
theorem compute_edit_sequence_inRange (s t : List Char) (k : Nat) (e : Edit)
    (hk : (compute_edit_sequence s t)[k]? = some e) :
    ∃ u, applyScript? ((compute_edit_sequence s t).take k) s = some u ∧
      e.inRange u :=
  applyScript?_take_inRange (compute_edit_sequence s t) s t
    (compute_edit_sequence_roundtrip s t) k e hk


theorem lev_nil_left (t : List Char) : lev [] t = t.length := by
  simp [lev]

theorem lev_cons_nil (a : Char) (s : List Char) : lev (a :: s) [] = s.length + 1 := by
  simp [lev]

theorem lev_cons_cons (a b : Char) (s t : List Char) :
    lev (a :: s) (b :: t) =
      if a = b then lev s t
      else 1 + min (lev s t) (min (lev (a :: s) t) (lev s (b :: t))) := by
  simp [lev]

theorem lev_nil_right (s : List Char) : lev s [] = s.length := by
  cases s with
  | nil => rw [lev_nil_left]
  | cons a s => rw [lev_cons_nil]; rfl

theorem lev_self (s : List Char) : lev s s = 0 := by
  induction s with
  | nil => rw [lev_nil_left]; rfl
  | cons a s ih => rw [lev_cons_cons, if_pos rfl, ih]

theorem lev_comm_aux : ∀ (n : Nat) (s t : List Char),
    s.length + t.length ≤ n → lev s t = lev t s := by
  intro n
  induction n with
  | zero =>
    intro s t h
    cases s with
    | cons a s => simp only [List.length_cons] at h; omega
    | nil =>
      cases t with
      | cons b t => simp only [List.length_cons] at h; omega
      | nil => rfl
  | succ n ih =>
    intro s t h
    cases s with
    | nil => rw [lev_nil_left, lev_nil_right]
    | cons a s =>
      cases t with
      | nil => rw [lev_nil_right, lev_nil_left]
      | cons b t =>
        simp only [List.length_cons] at h
        rw [lev_cons_cons, lev_cons_cons]
        by_cases hab : a = b
        · rw [if_pos hab, if_pos hab.symm]
          exact ih s t (by omega)
        · rw [if_neg hab, if_neg (fun hba => hab hba.symm)]
          have h1 := ih s t (by omega)
          have h2 := ih (a :: s) t (by simp; omega)
          have h3 := ih s (b :: t) (by simp; omega)
          omega

theorem lev_comm (s t : List Char) : lev s t = lev t s :=
  lev_comm_aux (s.length + t.length) s t le_rfl

/-- Removing or prepending one front character changes `lev` by at most
one. -/
theorem lev_step_aux : ∀ (n : Nat) (s t : List Char), s.length + t.length ≤ n →
    (∀ a, lev (a :: s) t ≤ 1 + lev s t) ∧ (∀ a, lev s t ≤ 1 + lev (a :: s) t) := by
  intro n
  induction n with
  | zero =>
    intro s t h
    cases s with
    | cons a s => simp only [List.length_cons] at h; omega
    | nil =>
      cases t with
      | cons b t => simp only [List.length_cons] at h; omega
      | nil =>
        constructor
        · intro a; rw [lev_cons_nil, lev_nil_left]; simp
        · intro a; rw [lev_nil_left, lev_cons_nil]; simp
  | succ n ih =>
    intro s t h
    constructor
    · intro a
      cases t with
      | nil => rw [lev_cons_nil, lev_nil_right]; omega
      | cons b t =>
        simp only [List.length_cons] at h
        rw [lev_cons_cons]
        by_cases hab : a = b
        · rw [if_pos hab]
          have hD := ((ih t s (by omega)).2) b
          have hc1 := lev_comm s t
          have hc2 := lev_comm s (b :: t)
          omega
        · rw [if_neg hab]
          omega
    · intro a
      cases t with
      | nil => rw [lev_nil_right, lev_cons_nil]; omega
      | cons b t =>
        simp only [List.length_cons] at h
        rw [lev_cons_cons]
        by_cases hab : a = b
        · rw [if_pos hab]
          have hB := ((ih t s (by omega)).1) b
          have hc1 := lev_comm s (b :: t)
          have hc2 := lev_comm s t
          omega
        · rw [if_neg hab]
          have hC : lev s (b :: t) ≤ 1 + lev s t := by
            have hB := ((ih t s (by omega)).1) b
            have hc1 := lev_comm s (b :: t)
            have hc2 := lev_comm s t
            omega
          have hD := ((ih s t (by omega)).2) a
          omega

theorem lev_cons_le (a : Char) (s t : List Char) : lev (a :: s) t ≤ 1 + lev s t :=
  ((lev_step_aux (s.length + t.length) s t le_rfl).1) a

theorem lev_le_cons (a : Char) (s t : List Char) : lev s t ≤ 1 + lev (a :: s) t :=
  ((lev_step_aux (s.length + t.length) s t le_rfl).2) a

theorem lev_cons_right_le (b : Char) (s t : List Char) : lev s (b :: t) ≤ 1 + lev s t := by
  have h1 := lev_cons_le b t s
  have h2 := lev_comm s (b :: t)
  have h3 := lev_comm s t
  omega

theorem lev_le_cons_right (b : Char) (s t : List Char) : lev s t ≤ 1 + lev s (b :: t) := by
  have h1 := lev_le_cons b t s
  have h2 := lev_comm s (b :: t)
  have h3 := lev_comm s t
  omega

/-- Replacing the front character changes `lev` by at most one. -/
theorem lev_sub_front (a c : Char) (s : List Char) :
    ∀ u, lev (a :: s) u ≤ 1 + lev (c :: s) u := by
  intro u
  cases u with
  | nil => rw [lev_cons_nil, lev_cons_nil]; omega
  | cons b u =>
    rw [lev_cons_cons, lev_cons_cons]
    by_cases hab : a = b <;> by_cases hcb : c = b
    · rw [if_pos hab, if_pos hcb]; omega
    · rw [if_pos hab, if_neg hcb]
      have h1 := lev_le_cons c s u
      have h2 := lev_le_cons_right b s u
      omega
    · rw [if_neg hab, if_pos hcb]
      omega
    · rw [if_neg hab, if_neg hcb]
      have h1 := lev_le_cons c s u
      omega

/-- A pointwise one-step bound survives prepending a common character. -/
theorem lev_cons_cong (u v : List Char) (H : ∀ w, lev u w ≤ 1 + lev v w) (a : Char) :
    ∀ w, lev (a :: u) w ≤ 1 + lev (a :: v) w := by
  intro w
  induction w with
  | nil =>
    rw [lev_cons_nil, lev_cons_nil]
    have h := H []
    rw [lev_nil_right, lev_nil_right] at h
    omega
  | cons b w ih =>
    rw [lev_cons_cons, lev_cons_cons]
    by_cases hab : a = b
    · rw [if_pos hab, if_pos hab]
      exact H w
    · rw [if_neg hab, if_neg hab]
      have h1 := H w
      have h2 := H (b :: w)
      omega

theorem lev_le_insertAt : ∀ (i : Nat) (u : List Char) (c : Char), i ≤ u.length →
    ∀ w, lev u w ≤ 1 + lev (u.take i ++ c :: u.drop i) w := by
  intro i
  induction i with
  | zero =>
    intro u c h w
    simp only [List.take_zero, List.drop_zero, List.nil_append]
    exact lev_le_cons c u w
  | succ i ih =>
    intro u c h w
    cases u with
    | nil => simp at h
    | cons x u =>
      rw [List.take_succ_cons, List.drop_succ_cons, List.cons_append]
      exact lev_cons_cong u (u.take i ++ c :: u.drop i)
        (fun w2 => ih u c (by simpa using h) w2) x w

theorem lev_le_removeAt : ∀ (i : Nat) (u : List Char), i < u.length →
    ∀ w, lev u w ≤ 1 + lev (u.take i ++ u.drop (i+1)) w := by
  intro i
  induction i with
  | zero =>
    intro u h w
    cases u with
    | nil => simp at h
    | cons x u =>
      simp only [List.take_zero, List.drop_succ_cons, List.drop_zero, List.nil_append]
      exact lev_cons_le x u w
  | succ i ih =>
    intro u h w
    cases u with
    | nil => simp at h
    | cons x u =>
      rw [List.take_succ_cons, List.drop_succ_cons, List.cons_append]
      exact lev_cons_cong u (u.take i ++ u.drop (i+1))
        (fun w2 => ih u (by simpa using h) w2) x w

theorem lev_le_setAt : ∀ (i : Nat) (u : List Char) (c : Char), i < u.length →
    ∀ w, lev u w ≤ 1 + lev (u.take i ++ c :: u.drop (i+1)) w := by
  intro i
  induction i with
  | zero =>
    intro u c h w
    cases u with
    | nil => simp at h
    | cons x u =>
      simp only [List.take_zero, List.drop_succ_cons, List.drop_zero, List.nil_append]
      exact lev_sub_front x c u w
  | succ i ih =>
    intro u c h w
    cases u with
    | nil => simp at h
    | cons x u =>
      rw [List.take_succ_cons, List.drop_succ_cons, List.cons_append]
      exact lev_cons_cong u (u.take i ++ c :: u.drop (i+1))
        (fun w2 => ih u c (by simpa using h) w2) x w

/-- One successful edit changes `lev` against any third string by at most
one. -/
theorem lev_le_of_apply (e : Edit) (u u1 : List Char) (h : e.apply? u = some u1) :
    ∀ w, lev u w ≤ 1 + lev u1 w := by
  intro w
  cases e with
  | insert c i =>
    simp only [Edit.apply?] at h
    split at h
    · obtain rfl := Option.some_inj.mp h
      exact lev_le_insertAt i u c (by omega) w
    · exact Option.noConfusion h
  | delete i =>
    simp only [Edit.apply?] at h
    split at h
    · obtain rfl := Option.some_inj.mp h
      rw [List.eraseIdx_eq_take_drop_succ]
      exact lev_le_removeAt i u (by omega) w
    · exact Option.noConfusion h
  | substitute c i =>
    simp only [Edit.apply?] at h
    split at h
    · obtain rfl := Option.some_inj.mp h
      rw [List.set_eq_take_cons_drop c (by omega)]
      exact lev_le_setAt i u c (by omega) w
    · exact Option.noConfusion h


/-- A successful edit on `u` corresponds to the mirrored edit on the
reversed string. -/
theorem apply?_mirror (e : Edit) (u u1 : List Char) (h : e.apply? u = some u1) :
    (e.mirror u.length).apply? u.reverse = some u1.reverse := by
  cases e with
  | insert c i =>
    simp only [Edit.apply?] at h
    by_cases hc : i ≤ u.length
    · rw [if_pos hc] at h
      obtain rfl := Option.some_inj.mp h
      simp only [Edit.mirror, Edit.apply?]
      rw [if_pos (by rw [List.length_reverse]; omega)]
      congr 1
      rw [List.reverse_append, List.reverse_cons, List.reverse_drop, List.reverse_take,
        List.append_assoc, List.singleton_append]
    · rw [if_neg hc] at h
      exact Option.noConfusion h
  | delete i =>
    simp only [Edit.apply?] at h
    by_cases hc : i < u.length
    · rw [if_pos hc] at h
      obtain rfl := Option.some_inj.mp h
      simp only [Edit.mirror, Edit.apply?]
      rw [if_pos (by rw [List.length_reverse]; omega)]
      congr 1
      rw [List.eraseIdx_eq_take_drop_succ, List.eraseIdx_eq_take_drop_succ,
        List.reverse_append, List.reverse_drop, List.reverse_take]
      rw [show u.length - 1 - i + 1 = u.length - i by omega,
        show u.length - (i + 1) = u.length - 1 - i by omega]
    · rw [if_neg hc] at h
      exact Option.noConfusion h
  | substitute c i =>
    simp only [Edit.apply?] at h
    by_cases hc : i < u.length
    · rw [if_pos hc] at h
      obtain rfl := Option.some_inj.mp h
      simp only [Edit.mirror, Edit.apply?]
      rw [if_pos (by rw [List.length_reverse]; omega)]
      congr 1
      rw [List.set_eq_take_cons_drop c (by rw [List.length_reverse]; omega),
        List.set_eq_take_cons_drop c hc,
        List.reverse_append, List.reverse_cons, List.reverse_drop, List.reverse_take,
        List.append_assoc, List.singleton_append]
      rw [show u.length - 1 - i + 1 = u.length - i by omega,
        show u.length - (i + 1) = u.length - 1 - i by omega]
    · rw [if_neg hc] at h
      exact Option.noConfusion h

/-- Lower bound: any successfully applied script is at least as long as the
`lev` value of the reversed strings. -/
theorem lev_rev_le_script : ∀ (es : List Edit) (u v : List Char),
    applyScript? es u = some v → lev u.reverse v.reverse ≤ es.length := by
  intro es
  induction es with
  | nil =>
    intro u v h
    simp only [applyScript?, Option.some_inj] at h
    subst h
    simp [lev_self]
  | cons e es ih =>
    intro e2 v h
    rw [applyScript?] at h
    cases happ : e.apply? e2 with
    | none => rw [happ] at h; exact Option.noConfusion h
    | some u1 =>
      rw [happ] at h
      have h2 := ih u1 v h
      have h3 := lev_le_of_apply (e.mirror e2.length) e2.reverse u1.reverse
        (apply?_mirror e e2 u1 happ) v.reverse
      simp only [List.length_cons]
      omega

theorem reverse_take_succ (s : List Char) (i : Nat) (h : i < s.length) :
    (s.take (i+1)).reverse = s[i] :: (s.take i).reverse := by
  rw [take_succ_eq s i h, List.reverse_append, List.reverse_singleton,
    List.singleton_append]

/-- The dp value is the `lev` value of the reversed prefixes. -/
theorem D_eq_lev (s t : List Char) :
    ∀ n i j, i + j ≤ n → i ≤ s.length → j ≤ t.length →
      D s t i j = lev ((s.take i).reverse) ((t.take j).reverse) := by
  intro n
  induction n with
  | zero =>
    intro i j h hi hj
    have hi0 : i = 0 := by omega
    have hj0 : j = 0 := by omega
    subst hi0; subst hj0
    simp [D_zero_left, lev_nil_left]
  | succ n ih =>
    intro i j h hi hj
    cases i with
    | zero =>
      rw [D_zero_left]
      simp only [List.take_zero, List.reverse_nil, lev_nil_left,
        List.length_reverse, List.length_take]
      omega
    | succ i =>
      cases j with
      | zero =>
        rw [D_succ_zero]
        simp only [List.take_zero, List.reverse_nil, lev_nil_right,
          List.length_reverse, List.length_take]
        omega
      | succ j =>
        have his : i < s.length := by omega
        have htj : j < t.length := by omega
        rw [D_succ_succ, reverse_take_succ s i his, reverse_take_succ t j htj,
          lev_cons_cons, charAt_eq s i his, charAt_eq t j htj]
        have e1 := ih i j (by omega) (by omega) (by omega)
        have e2 := ih (i+1) j (by omega) (by omega) (by omega)
        have e3 := ih i (j+1) (by omega) (by omega) (by omega)
        rw [reverse_take_succ s i his] at e2
        rw [reverse_take_succ t j htj] at e3
        have adj1 := (D_adj s t (i + (j+1)) i j (by omega)).1
        have adj2 := (D_adj s t (i + (j+1)) i j (by omega)).2
        by_cases hcc : s[i] = t[j]
        · rw [if_pos hcc, if_pos hcc]
          omega
        · rw [if_neg hcc, if_neg hcc]
          omega

/-- C2: the length of `compute_edit_sequence s t` is the least length of any
edit script that transforms `s` into `t`, i.e. the classical Levenshtein
distance between `s` and `t`. -/
theorem compute_edit_sequence_length_levenshtein (s t : List Char) :
    IsLeast {n : Nat | ∃ es : List Edit, applyScript? es s = some t ∧ es.length = n}
      ((compute_edit_sequence s t).length) := by
  constructor
  · exact ⟨compute_edit_sequence s t, compute_edit_sequence_roundtrip s t, rfl⟩
  · rintro n ⟨es, hes, rfl⟩
    have h1 : (compute_edit_sequence s t).length = D s t s.length t.length := by
      rw [compute_edit_sequence, shiftPass_length,
        bt_length s t (s.length + t.length) s.length t.length le_rfl]
    have h2 : D s t s.length t.length = lev s.reverse t.reverse := by
      rw [D_eq_lev s t (s.length + t.length) s.length t.length le_rfl le_rfl le_rfl,
        List.take_length, List.take_length]
    have h3 := lev_rev_le_script es s t hes
    omega


/-- C3: during backtracking, when the characters differ and two or more of
the three predecessor cells of `dp` are tied for the smallest value, the
chosen edit follows the priority Substitute, then Insert, then Delete.
(`D s t i j`, `D s t (i+1) j`, `D s t i (j+1)` are the predecessor cells of
matrix cell `(i+1, j+1)`: substitution, insertion, deletion.) -/
theorem btStep_tie_priority (s t : List Char) (i j : Nat)
    (_htie : (D s t i j = min (D s t i j) (min (D s t (i+1) j) (D s t i (j+1))) ∧
             D s t (i+1) j = min (D s t i j) (min (D s t (i+1) j) (D s t i (j+1)))) ∨
            (D s t i j = min (D s t i j) (min (D s t (i+1) j) (D s t i (j+1))) ∧
             D s t i (j+1) = min (D s t i j) (min (D s t (i+1) j) (D s t i (j+1)))) ∨
            (D s t (i+1) j = min (D s t i j) (min (D s t (i+1) j) (D s t i (j+1))) ∧
             D s t i (j+1) = min (D s t i j) (min (D s t (i+1) j) (D s t i (j+1))))) :
    (D s t i j = min (D s t i j) (min (D s t (i+1) j) (D s t i (j+1))) →
      btStep s t i j = Edit.substitute (charAt t j) i) ∧
    (D s t i j ≠ min (D s t i j) (min (D s t (i+1) j) (D s t i (j+1))) →
      D s t (i+1) j = min (D s t i j) (min (D s t (i+1) j) (D s t i (j+1))) →
      btStep s t i j = Edit.insert (charAt t j) (i+1)) ∧
    (D s t i j ≠ min (D s t i j) (min (D s t (i+1) j) (D s t i (j+1))) →
      D s t (i+1) j ≠ min (D s t i j) (min (D s t (i+1) j) (D s t i (j+1))) →
      btStep s t i j = Edit.delete i) := by
  refine ⟨?_, ?_, ?_⟩
  · intro ha
    rw [btStep, chooseEdit_spec, if_neg (by omega), if_neg (by omega)]
  · intro ha hb
    rw [btStep, chooseEdit_spec, if_pos (by omega), if_neg (by omega)]
  · intro ha hb
    rw [btStep, chooseEdit_spec]
    by_cases hba : D s t (i+1) j < D s t i j
    · rw [if_pos hba, if_pos (by omega)]
    · rw [if_neg hba, if_pos (by omega)]

/-- C6: `Edit::apply` panics exactly when the index is outside the valid
range for its operation (in scalar-character units), and otherwise performs
exactly the single specified mutation. -/
theorem apply_spec (e : Edit) (s : List Char) :
    (∀ c i, e = Edit.insert c i →
      (e.apply? s = none ↔ s.length < i) ∧
      (i ≤ s.length → e.apply? s = some (s.take i ++ c :: s.drop i))) ∧
    (∀ i, e = Edit.delete i →
      (e.apply? s = none ↔ s.length ≤ i) ∧
      (i < s.length → e.apply? s = some (s.take i ++ s.drop (i+1)))) ∧
    (∀ c i, e = Edit.substitute c i →
      (e.apply? s = none ↔ s.length ≤ i) ∧
      (i < s.length → e.apply? s = some (s.take i ++ c :: s.drop (i+1)))) := by
  refine ⟨?_, ?_, ?_⟩
  · rintro c i rfl
    constructor
    · simp only [Edit.apply?]
      split
      · simp
        omega
      · simp
        omega
    · intro h
      simp only [Edit.apply?, if_pos h]
  · rintro i rfl
    constructor
    · simp only [Edit.apply?]
      split
      · simp
        omega
      · simp
        omega
    · intro h
      simp only [Edit.apply?, if_pos h, List.eraseIdx_eq_take_drop_succ]
  · rintro c i rfl
    constructor
    · simp only [Edit.apply?]
      split
      · simp
        omega
      · simp
        omega
    · intro h
      simp only [Edit.apply?, if_pos h]
      rw [List.set_eq_take_cons_drop c h]

/-- C10: for in-range edits, `Edit::apply` changes only the named position:
insert yields the first `i` characters, then `c`, then the rest; delete
removes exactly position `i`; substitute replaces exactly position `i`,
leaving every other position unchanged. -/
theorem apply_frame (s : List Char) :
    (∀ c i, i ≤ s.length → ∃ r, (Edit.insert c i).apply? s = some r ∧
      r = s.take i ++ c :: s.drop i ∧ r.length = s.length + 1) ∧
    (∀ i, i < s.length → ∃ r, (Edit.delete i).apply? s = some r ∧
      r = s.take i ++ s.drop (i+1) ∧ r.length = s.length - 1) ∧
    (∀ c i, i < s.length → ∃ r, (Edit.substitute c i).apply? s = some r ∧
      r.length = s.length ∧ r[i]? = some c ∧ ∀ k, k ≠ i → r[k]? = s[k]?) := by
  refine ⟨?_, ?_, ?_⟩
  · intro c i h
    refine ⟨s.take i ++ c :: s.drop i, by simp only [Edit.apply?, if_pos h], rfl, ?_⟩
    simp only [List.length_append, List.length_cons, List.length_take, List.length_drop]
    omega
  · intro i h
    refine ⟨s.take i ++ s.drop (i+1), ?_, rfl, ?_⟩
    · simp only [Edit.apply?, if_pos h, List.eraseIdx_eq_take_drop_succ]
    · simp only [List.length_append, List.length_take, List.length_drop]
      omega
  · intro c i h
    refine ⟨s.set i c, by simp only [Edit.apply?, if_pos h], by simp, ?_, ?_⟩
    · exact List.getElem?_set_self h
    · intro k hk
      exact List.getElem?_set_ne (fun he => hk he.symm)


theorem advance_nil (m : MorphingString) (h : m.remaining_edits = []) :
    m.advance = some (m, m.progress) := by
  obtain ⟨cv, tg, re, te⟩ := m
  simp only at h
  subst h
  rfl

theorem advance_cons_some (m : MorphingString) (e : Edit) (rest : List Edit)
    (v : List Char) (h : m.remaining_edits = e :: rest)
    (happ : e.apply? m.current_value = some v) :
    m.advance = some
      ({ current_value := v, target := m.target, remaining_edits := rest,
         total_edits := m.total_edits },
       { total_edits := m.total_edits, remaining_edits := rest.length }) := by
  obtain ⟨cv, tg, re, te⟩ := m
  simp only at h happ
  subst h
  simp only [MorphingString.advance, happ, MorphingString.progress]

theorem advance_cons_none (m : MorphingString) (e : Edit) (rest : List Edit)
    (h : m.remaining_edits = e :: rest)
    (happ : e.apply? m.current_value = none) :
    m.advance = none := by
  obtain ⟨cv, tg, re, te⟩ := m
  simp only at h happ
  subst h
  simp only [MorphingString.advance, happ]

theorem advanceN_succ (m : MorphingString) (k : Nat) :
    m.advanceN (k+1) =
      match m.advance with
      | some (m2, _) => m2.advanceN k
      | none => none := rfl

/-- Stepping `k` times through a valid queue reaches the state whose value
is the partial application and whose queue is the remaining suffix. -/
theorem advance_steps : ∀ (k : Nat) (m : MorphingString),
    applyScript? m.remaining_edits m.current_value = some m.target →
    k ≤ m.remaining_edits.length →
    ∃ u, applyScript? (m.remaining_edits.take k) m.current_value = some u ∧
      m.advanceN k = some
        { current_value := u, target := m.target,
          remaining_edits := m.remaining_edits.drop k,
          total_edits := m.total_edits } := by
  intro k
  induction k with
  | zero =>
    intro m hm hk
    exact ⟨m.current_value, rfl, rfl⟩
  | succ k ih =>
    intro m hm hk
    cases hre : m.remaining_edits with
    | nil => rw [hre] at hk; simp at hk
    | cons e rest =>
      rw [hre] at hm
      rw [applyScript?] at hm
      cases happ : e.apply? m.current_value with
      | none => rw [happ] at hm; exact Option.noConfusion hm
      | some u1 =>
        rw [happ] at hm
        have hadv := advance_cons_some m e rest u1 hre happ
        obtain ⟨u, hu, hN⟩ := ih
          { current_value := u1, target := m.target, remaining_edits := rest,
            total_edits := m.total_edits }
          hm (by rw [hre] at hk; simpa using hk)
        refine ⟨u, ?_, ?_⟩
        · rw [List.take_succ_cons, applyScript?, happ]
          exact hu
        · rw [advanceN_succ, hadv, List.drop_succ_cons]
          exact hN

/-- C4: after `set_target t`, each `advance` pops exactly one edit (never
panicking) until the queue is empty; at that point the value is `t` and any
further `advance` returns the unchanged state together with a `Progress`. -/
theorem set_target_advance_spec (m : MorphingString) (t : List Char) :
    (∀ k, k ≤ (m.set_target t).total_edits →
      ∃ mk, (m.set_target t).advanceN k = some mk ∧
        mk.remaining_edits.length = (m.set_target t).total_edits - k) ∧
    (∀ mk, (m.set_target t).advanceN (m.set_target t).total_edits = some mk →
      mk.get_value = t ∧ mk.remaining_edits = [] ∧
      mk.advance = some (mk, mk.progress)) := by
  have hm : applyScript? (m.set_target t).remaining_edits
      (m.set_target t).current_value = some (m.set_target t).target :=
    compute_edit_sequence_roundtrip m.current_value t
  have hlen : (m.set_target t).total_edits = (m.set_target t).remaining_edits.length := rfl
  constructor
  · intro k hk
    obtain ⟨u, hu, hN⟩ := advance_steps k (m.set_target t) hm (by omega)
    refine ⟨_, hN, ?_⟩
    simp only [List.length_drop]
    omega
  · intro mk hN
    obtain ⟨u, hu, hN2⟩ :=
      advance_steps (m.set_target t).total_edits (m.set_target t) hm (by omega)
    rw [hN] at hN2
    obtain rfl := Option.some_inj.mp hN2
    rw [hlen, List.take_length] at hu
    have hut : u = t := by
      rw [hu] at hm
      exact Option.some_inj.mp hm
    have hdrop : (m.set_target t).remaining_edits.drop
        (m.set_target t).total_edits = [] := by
      rw [hlen, List.drop_length]
    exact ⟨hut, hdrop, advance_nil _ hdrop⟩

/-- C9: every state reachable through the public operations satisfies the
invariant: the pending queue applied to the current value yields the target,
and the queue is never longer than `total_edits`. -/
theorem reachable_invariant (m : MorphingString) (h : Reachable m) :
    applyScript? m.remaining_edits m.current_value = some m.target ∧
    m.remaining_edits.length ≤ m.total_edits := by
  induction h with
  | new value => exact ⟨rfl, le_rfl⟩
  | set_target target hr ih =>
    exact ⟨compute_edit_sequence_roundtrip _ target, le_rfl⟩
  | advance hr hadv ih =>
    rename_i m0 m1 p
    obtain ⟨h1, h2⟩ := ih
    cases hre : m0.remaining_edits with
    | nil =>
      rw [advance_nil m0 hre] at hadv
      obtain heq := Option.some_inj.mp hadv
      obtain ⟨rfl, rfl⟩ := Prod.mk.injEq .. |>.mp heq
      exact ⟨h1, h2⟩
    | cons e rest =>
      rw [hre] at h1
      rw [applyScript?] at h1
      cases happ : e.apply? m0.current_value with
      | none => rw [happ] at h1; exact Option.noConfusion h1
      | some v =>
        rw [happ] at h1
        rw [advance_cons_some m0 e rest v hre happ] at hadv
        obtain heq := Option.some_inj.mp hadv
        obtain ⟨rfl, rfl⟩ := Prod.mk.injEq .. |>.mp heq
        refine ⟨h1, ?_⟩
        simp only
        rw [hre] at h2
        simp only [List.length_cons] at h2
        omega


/-- C8: the two concrete scenarios of the spec, exactly as the source's own
test suite pins them. -/
theorem compute_edit_sequence_examples :
    compute_edit_sequence "kitten".toList "mittens".toList =
      [Edit.substitute 'm' 0, Edit.insert 's' 6] ∧
    compute_edit_sequence "sunday".toList "saturday".toList =
      [Edit.insert 'a' 1, Edit.insert 't' 2, Edit.substitute 'r' 4] := by
  constructor
  · decide
  · decide


theorem btStep_tie_priority_witness :
    ((D ['x', 'y'] ['z'] 1 0 =
        min (D ['x', 'y'] ['z'] 1 0) (min (D ['x', 'y'] ['z'] 2 0) (D ['x', 'y'] ['z'] 1 1)) ∧
      D ['x', 'y'] ['z'] 1 1 =
        min (D ['x', 'y'] ['z'] 1 0) (min (D ['x', 'y'] ['z'] 2 0) (D ['x', 'y'] ['z'] 1 1))) ∧
     D ['x', 'y'] ['z'] 1 0 =
        min (D ['x', 'y'] ['z'] 1 0) (min (D ['x', 'y'] ['z'] 2 0) (D ['x', 'y'] ['z'] 1 1))) ∧
    btStep ['x', 'y'] ['z'] 1 0 = Edit.substitute 'z' 1 :=
  ⟨⟨by decide, by decide⟩,
    (btStep_tie_priority ['x', 'y'] ['z'] 1 0 (Or.inr (Or.inl ⟨by decide, by decide⟩))).1
      (by decide)⟩

theorem set_target_advance_spec_witness :
    1 ≤ ((MorphingString.new ['a']).set_target ['b']).total_edits ∧
    ∃ mk, ((MorphingString.new ['a']).set_target ['b']).advanceN 1 = some mk ∧
      mk.remaining_edits.length =
        ((MorphingString.new ['a']).set_target ['b']).total_edits - 1 :=
  ⟨by decide,
    (set_target_advance_spec (MorphingString.new ['a']) ['b']).1 1 (by decide)⟩

theorem compute_edit_sequence_inRange_witness :
    (compute_edit_sequence ['a'] ['b'])[0]? = some (Edit.substitute 'b' 0) ∧
    ∃ u, applyScript? ((compute_edit_sequence ['a'] ['b']).take 0) ['a'] = some u ∧
      (Edit.substitute 'b' 0).inRange u :=
  ⟨by decide,
    compute_edit_sequence_inRange ['a'] ['b'] 0 (Edit.substitute 'b' 0) (by decide)⟩

theorem apply_spec_witness :
    ((Edit.insert 'a' 1).apply? [] = none ↔ List.length ([] : List Char) < 1) ∧
    (1 ≤ List.length ([] : List Char) →
      (Edit.insert 'a' 1).apply? [] =
        some (List.take 1 [] ++ 'a' :: List.drop 1 [])) :=
  (apply_spec (Edit.insert 'a' 1) []).1 'a' 1 rfl

theorem reachable_invariant_witness :
    applyScript? (MorphingString.new ['a']).remaining_edits
      (MorphingString.new ['a']).current_value =
        some (MorphingString.new ['a']).target ∧
    (MorphingString.new ['a']).remaining_edits.length ≤
      (MorphingString.new ['a']).total_edits :=
  reachable_invariant (MorphingString.new ['a']) (Reachable.new ['a'])

theorem apply_frame_witness :
    0 < List.length ['a', 'b'] ∧
    ∃ r, (Edit.substitute 'z' 0).apply? ['a', 'b'] = some r ∧
      r.length = List.length ['a', 'b'] ∧ r[0]? = some 'z' ∧
      ∀ k, k ≠ 0 → r[k]? = ['a', 'b'][k]? :=
  ⟨by decide, (apply_frame ['a', 'b']).2.2 'z' 0 (by decide)⟩

end Morph
